import Mathlib

/-!
Verification of the FCFS scheduler in `src/app/projects/fcfs/page.tsx`.

The core under specification is the function `fcfs` (source lines 73-139):
it copies and sorts the input processes by arrival time with pid as a tie
break, simulates the non-preemptive schedule with a clock starting at 0
while recording a unit-granularity timeline (including `IDLE` units), then
run-length compresses that timeline into Gantt blocks and derives the
sorted, deduplicated time markers and the total time.

Numbers in the source are JavaScript numbers; the inputs the claims range
over are integers, so arrivals, bursts and all derived metrics are
embedded as `Int`.  Timeline indices (block `start`/`stop` bounds and the
time markers) are the loop indices of the compression pass and are
embedded as `Nat`.
-/

namespace FCFS

/-- Input process record (source line 73: `{ pid, arrival, burst }`). -/
structure ProcessIn where
  pid : String
  arrival : Int
  burst : Int
deriving DecidableEq

/-- Output metrics record pushed onto `done` (source lines 104-109). -/
structure ProcResult where
  pid : String
  arrival : Int
  burst : Int
  completion : Int
  turnaround : Int
  waiting : Int
deriving DecidableEq

/-- Projection of an output record back to its input fields. -/
def ProcResult.toInput (r : ProcResult) : ProcessIn :=
  { pid := r.pid, arrival := r.arrival, burst := r.burst }

/-- Gantt chart block (source lines 46-50).  The source field `end` is a
Lean keyword, so it is embedded as `stop`. -/
structure GanttBlock where
  process : String
  start : Nat
  stop : Nat
deriving DecidableEq

/-- The record returned by `fcfs` (source lines 133-138). -/
structure FcfsOutput where
  ganttBlocks : List GanttBlock
  timeMarkers : List Nat
  totalTime : Nat
  results : List ProcResult
deriving DecidableEq

/-- The total preorder induced by the sort comparator on source line 77:
`a.arrival - b.arrival || a.pid.localeCompare(b.pid)`.  `a` is placed no
later than `b` exactly when the comparator is nonpositive.  Following the
spec, `localeCompare` is taken to be lexicographic string comparison. -/
def sortLe (a b : ProcessIn) : Prop :=
  a.arrival < b.arrival ∨ (a.arrival = b.arrival ∧ a.pid ≤ b.pid)

instance : DecidableRel sortLe := fun a b => by
  unfold sortLe; infer_instance

instance : IsTotal ProcessIn sortLe where
  total a b := by
    unfold sortLe
    rcases lt_trichotomy a.arrival b.arrival with h | h | h
    · exact Or.inl (Or.inl h)
    · rcases le_total a.pid b.pid with hp | hp
      · exact Or.inl (Or.inr ⟨h, hp⟩)
      · exact Or.inr (Or.inr ⟨h.symm, hp⟩)
    · exact Or.inr (Or.inl h)

instance : IsTrans ProcessIn sortLe where
  trans a b c hab hbc := by
    unfold sortLe at hab hbc ⊢
    rcases hab with h1 | ⟨h1, hp1⟩ <;> rcases hbc with h2 | ⟨h2, hp2⟩
    · exact Or.inl (h1.trans h2)
    · exact Or.inl (h2 ▸ h1)
    · exact Or.inl (h1 ▸ h2)
    · exact Or.inr ⟨h1.trans h2, hp1.trans hp2⟩

/-- The sort on source lines 75-77: JavaScript `Array.prototype.sort` with
a consistent comparator produces the stable sort, embedded as insertion
sort with respect to `sortLe`. -/
def fcfsSort (ps : List ProcessIn) : List ProcessIn :=
  List.insertionSort sortLe ps

/-- State of the simulation loop (source lines 79-110): the clock `time`,
the growing `uncompressedTimeline`, and the `done` results. -/
structure SimState where
  time : Int
  timeline : List String
  done : List ProcResult
deriving DecidableEq

/-- One iteration of the loop on source lines 83-110: compute the start
time (advanced to `arrival` past an idle gap), push one `IDLE` timeline
unit per idle time unit and one `pid` unit per burst unit, record the
completion/turnaround/waiting metrics, and advance the clock. -/
def step (st : SimState) (p : ProcessIn) : SimState :=
  let startTime : Int := if p.arrival > st.time then p.arrival else st.time
  let idleUnits : List String :=
    if p.arrival > st.time then List.replicate (p.arrival - st.time).toNat "IDLE" else []
  let completion : Int := startTime + p.burst
  { time := completion
    timeline := st.timeline ++ idleUnits ++ List.replicate p.burst.toNat p.pid
    done := st.done ++ [{ pid := p.pid, arrival := p.arrival, burst := p.burst,
                          completion := completion,
                          turnaround := completion - p.arrival,
                          waiting := completion - p.arrival - p.burst }] }

/-- The simulation pass: fold the loop body over the sorted processes
starting from clock 0 with empty timeline and results. -/
def simulate (ps : List ProcessIn) : SimState :=
  List.foldl step { time := 0, timeline := [], done := [] } (fcfsSort ps)

/-- The compression loop on source lines 113-127, walking the suffix of
the uncompressed timeline that starts at index `t`, with `s` the start of
the block currently being built: a block is emitted at the last index and
at every index whose successor carries a different label. -/
def compressFrom : List String → Nat → Nat → List GanttBlock
  | [], _, _ => []
  | [x], s, t => [{ process := x, start := s, stop := t + 1 }]
  | x :: y :: rest, s, t =>
    if y ≠ x then
      { process := x, start := s, stop := t + 1 } :: compressFrom (y :: rest) (t + 1) (t + 1)
    else
      compressFrom (y :: rest) s (t + 1)

/-- Numeric ascending sort used for the time markers (source line 130). -/
def natSort (l : List Nat) : List Nat :=
  List.insertionSort (fun a b => a ≤ b) l

/-- The full `fcfs` function (source lines 73-139): sort, simulate,
compress the timeline into Gantt blocks, and derive the deduplicated
sorted time markers and the total time (`timeMarkers[len-1] || 0`). -/
def fcfs (ps : List ProcessIn) : FcfsOutput :=
  let st := simulate ps
  let blocks := compressFrom st.timeline 0 0
  let timeMarkers :=
    natSort ((blocks.map GanttBlock.start ++ blocks.map GanttBlock.stop).dedup)
  { ganttBlocks := blocks
    timeMarkers := timeMarkers
    totalTime := timeMarkers.getLastD 0
    results := st.done }

/-- Modelled from the spec (section 4.1, step 2, and claim C2): the per
process metrics obtained by processing a sequence with a clock, where each
process starts at `max clock arrival`, completes at start plus burst,
and turnaround and waiting are the stated differences. -/
def specResults (clock : Int) : List ProcessIn → List ProcResult
  | [] => []
  | p :: rest =>
    { pid := p.pid, arrival := p.arrival, burst := p.burst,
      completion := max clock p.arrival + p.burst,
      turnaround := max clock p.arrival + p.burst - p.arrival,
      waiting := max clock p.arrival + p.burst - p.arrival - p.burst } ::
    specResults (max clock p.arrival + p.burst) rest

/-- Modelled from the spec (section 4.1, step 2): the unit-granularity
timeline, one `IDLE` unit per unit of the gap `arrival - clock` (empty
when the process has already arrived) followed by one unit per burst unit,
with the clock advanced to the completion time. -/
def specTimeline (clock : Int) : List ProcessIn → List String
  | [] => []
  | p :: rest =>
    List.replicate (p.arrival - clock).toNat "IDLE" ++
    List.replicate p.burst.toNat p.pid ++
    specTimeline (max clock p.arrival + p.burst) rest

/-- The clock value after processing a sequence of processes. -/
def finalClock (clock : Int) : List ProcessIn → Int
  | [] => clock
  | p :: rest => finalClock (max clock p.arrival + p.burst) rest

/-! ### The simulation fold computes the spec recursions -/

theorem ite_start_eq_max (t a : Int) : (if t < a then a else t) = max t a := by
  rcases le_or_lt a t with h | h
  · rw [if_neg (not_lt.mpr h), max_eq_left h]
  · rw [if_pos h, max_eq_right h.le]

theorem ite_idle_eq_replicate (t a : Int) :
    (if t < a then List.replicate (a - t).toNat "IDLE" else []) =
      List.replicate (a - t).toNat "IDLE" := by
  rcases le_or_lt a t with h | h
  · rw [if_neg (not_lt.mpr h), Int.toNat_of_nonpos (by omega), List.replicate_zero]
  · rw [if_pos h]

theorem step_eq (st : SimState) (p : ProcessIn) :
    step st p =
      { time := max st.time p.arrival + p.burst
        timeline := st.timeline ++ (List.replicate (p.arrival - st.time).toNat "IDLE" ++
          List.replicate p.burst.toNat p.pid)
        done := st.done ++ [{ pid := p.pid, arrival := p.arrival, burst := p.burst,
                              completion := max st.time p.arrival + p.burst,
                              turnaround := max st.time p.arrival + p.burst - p.arrival,
                              waiting := max st.time p.arrival + p.burst - p.arrival - p.burst }] } := by
  unfold step
  simp only [gt_iff_lt, ite_start_eq_max, ite_idle_eq_replicate, List.append_assoc]

theorem foldl_step_eq (l : List ProcessIn) (st : SimState) :
    List.foldl step st l =
      { time := finalClock st.time l
        timeline := st.timeline ++ specTimeline st.time l
        done := st.done ++ specResults st.time l } := by
  induction l generalizing st with
  | nil => simp [finalClock, specTimeline, specResults]
  | cons p rest ih =>
    rw [List.foldl_cons, ih, step_eq]
    simp [finalClock, specTimeline, specResults, List.append_assoc]

theorem fcfs_results_eq (ps : List ProcessIn) :
    (fcfs ps).results = specResults 0 (fcfsSort ps) := by
  show (simulate ps).done = _
  rw [simulate, foldl_step_eq]
  simp

theorem fcfs_timeline_eq (ps : List ProcessIn) :
    (simulate ps).timeline = specTimeline 0 (fcfsSort ps) := by
  rw [simulate, foldl_step_eq]
  simp

theorem fcfs_blocks_eq (ps : List ProcessIn) :
    (fcfs ps).ganttBlocks = compressFrom (specTimeline 0 (fcfsSort ps)) 0 0 := by
  show compressFrom (simulate ps).timeline 0 0 = _
  rw [fcfs_timeline_eq]

theorem fcfs_markers_eq (ps : List ProcessIn) :
    (fcfs ps).timeMarkers =
      natSort (((fcfs ps).ganttBlocks.map GanttBlock.start ++
        (fcfs ps).ganttBlocks.map GanttBlock.stop).dedup) := rfl

theorem fcfs_totalTime_eq (ps : List ProcessIn) :
    (fcfs ps).totalTime = (fcfs ps).timeMarkers.getLastD 0 := rfl

theorem specResults_map_toInput (clock : Int) (procs : List ProcessIn) :
    (specResults clock procs).map ProcResult.toInput = procs := by
  induction procs generalizing clock with
  | nil => rfl
  | cons p rest ih => simp [specResults, ProcResult.toInput, ih]

/-- C1: the execution order of the `fcfs` results is the input stably
sorted by arrival time ascending with ties broken by pid in lexicographic
order: the result sequence projects back to the insertion sort of the
input under `sortLe`, which is a permutation of the input that is sorted
by `sortLe`. -/
theorem fcfs_results_sorted_by_arrival_then_pid (ps : List ProcessIn) :
    ((fcfs ps).results.map ProcResult.toInput = List.insertionSort sortLe ps) ∧
    ((fcfs ps).results.map ProcResult.toInput).Perm ps ∧
    ((fcfs ps).results.map ProcResult.toInput).Sorted sortLe := by
  have h : (fcfs ps).results.map ProcResult.toInput = List.insertionSort sortLe ps := by
    rw [fcfs_results_eq, specResults_map_toInput]; rfl
  exact ⟨h, h ▸ List.perm_insertionSort sortLe ps, h ▸ List.sorted_insertionSort sortLe ps⟩

/-- C2: on non-empty well-formed input, the result metrics and the
uncompressed timeline are exactly those obtained by processing the sorted
sequence with a clock starting at 0, each process starting at
`max clock arrival` (the gap recorded as idle units), completing at start
plus burst, with turnaround and waiting the stated differences and the
clock advancing to the completion. -/
theorem fcfs_results_follow_clock_spec (ps : List ProcessIn) (_hne : ps ≠ [])
    (_hwf : ∀ p ∈ ps, 0 ≤ p.arrival ∧ 0 < p.burst) :
    (fcfs ps).results = specResults 0 (fcfsSort ps) ∧
    (simulate ps).timeline = specTimeline 0 (fcfsSort ps) ∧
    (simulate ps).time = finalClock 0 (fcfsSort ps) := by
  refine ⟨fcfs_results_eq ps, fcfs_timeline_eq ps, ?_⟩
  rw [simulate, foldl_step_eq]

theorem fcfs_results_follow_clock_spec_witness :
    ([({ pid := "P1", arrival := 0, burst := 5 } : ProcessIn)] ≠ [] ∧
      ∀ p ∈ [({ pid := "P1", arrival := 0, burst := 5 } : ProcessIn)],
        0 ≤ p.arrival ∧ 0 < p.burst) ∧
    ((fcfs [{ pid := "P1", arrival := 0, burst := 5 }]).results =
        specResults 0 (fcfsSort [{ pid := "P1", arrival := 0, burst := 5 }]) ∧
      (simulate [{ pid := "P1", arrival := 0, burst := 5 }]).timeline =
        specTimeline 0 (fcfsSort [{ pid := "P1", arrival := 0, burst := 5 }]) ∧
      (simulate [{ pid := "P1", arrival := 0, burst := 5 }]).time =
        finalClock 0 (fcfsSort [{ pid := "P1", arrival := 0, burst := 5 }])) :=
  ⟨⟨by decide, by decide⟩,
    fcfs_results_follow_clock_spec [{ pid := "P1", arrival := 0, burst := 5 }]
      (by decide) (by decide)⟩

theorem specResults_waiting_nonneg (clock : Int) (procs : List ProcessIn) :
    ∀ r ∈ specResults clock procs, 0 ≤ r.waiting ∧ r.burst ≤ r.turnaround := by
  induction procs generalizing clock with
  | nil => intro r hr; simp [specResults] at hr
  | cons p rest ih =>
    intro r hr
    rw [specResults, List.mem_cons] at hr
    rcases hr with rfl | hr
    · have h := le_max_right clock p.arrival
      constructor <;> simp only [] <;> linarith
    · exact ih _ r hr

/-- C4: on non-empty well-formed input, every output process has
nonnegative waiting time and turnaround at least its burst. -/
theorem fcfs_waiting_nonneg (ps : List ProcessIn) (_hne : ps ≠ [])
    (_hwf : ∀ p ∈ ps, 0 ≤ p.arrival ∧ 0 < p.burst) :
    ∀ r ∈ (fcfs ps).results, 0 ≤ r.waiting ∧ r.burst ≤ r.turnaround := by
  rw [fcfs_results_eq]
  exact specResults_waiting_nonneg 0 (fcfsSort ps)

theorem fcfs_waiting_nonneg_witness :
    ([({ pid := "P1", arrival := 2, burst := 3 } : ProcessIn)] ≠ [] ∧
      ∀ p ∈ [({ pid := "P1", arrival := 2, burst := 3 } : ProcessIn)],
        0 ≤ p.arrival ∧ 0 < p.burst) ∧
    ∀ r ∈ (fcfs [{ pid := "P1", arrival := 2, burst := 3 }]).results,
      0 ≤ r.waiting ∧ r.burst ≤ r.turnaround :=
  ⟨⟨by decide, by decide⟩,
    fcfs_waiting_nonneg [{ pid := "P1", arrival := 2, burst := 3 }] (by decide) (by decide)⟩

/-- C9: `fcfs` is deterministic: two calls on identical inputs return
identical outputs.  In this embedding `fcfs` is a pure function, so the
absence of input mutation and other side effects holds by construction. -/
theorem fcfs_deterministic (ps₁ ps₂ : List ProcessIn) (h : ps₁ = ps₂) :
    fcfs ps₁ = fcfs ps₂ := by rw [h]

theorem fcfs_deterministic_witness :
    ([({ pid := "P1", arrival := 0, burst := 1 } : ProcessIn)] =
        [({ pid := "P1", arrival := 0, burst := 1 } : ProcessIn)]) ∧
    fcfs [{ pid := "P1", arrival := 0, burst := 1 }] =
      fcfs [{ pid := "P1", arrival := 0, burst := 1 }] :=
  ⟨rfl, fcfs_deterministic [{ pid := "P1", arrival := 0, burst := 1 }]
    [{ pid := "P1", arrival := 0, burst := 1 }] rfl⟩

/-- C10: on the empty input `fcfs` signals no error and returns empty
results, empty Gantt blocks, empty time markers and total time 0. -/
theorem fcfs_empty_input :
    fcfs [] = { ganttBlocks := [], timeMarkers := [], totalTime := 0, results := [] } := rfl

/-! ### Structure of the compression pass -/

theorem compressFrom_ne_nil : ∀ (l : List String) (s t : Nat), l ≠ [] →
    compressFrom l s t ≠ []
  | [], _, _, h => absurd rfl h
  | [_], _, _, _ => by simp [compressFrom]
  | x :: y :: rest, s, t, _ => by
    simp only [compressFrom]
    split
    · simp
    · exact compressFrom_ne_nil (y :: rest) s (t + 1) (by simp)

theorem compressFrom_head_process : ∀ (x : String) (rest : List String) (s t : Nat),
    (compressFrom (x :: rest) s t).head?.map GanttBlock.process = some x
  | _, [], _, _ => by simp [compressFrom]
  | x, y :: rest, s, t => by
    simp only [compressFrom]
    split
    · simp
    · rename_i h
      have hyx : y = x := not_not.mp h
      rw [← hyx]
      exact compressFrom_head_process y rest s (t + 1)

theorem compressFrom_chain_ne : ∀ (l : List String) (s t : Nat),
    (compressFrom l s t).Chain' (fun a b => a.process ≠ b.process)
  | [], _, _ => List.chain'_nil
  | [x], s, t => List.chain'_singleton _
  | x :: y :: rest, s, t => by
    simp only [compressFrom]
    split
    · rename_i hne
      rw [List.chain'_cons']
      refine ⟨?_, compressFrom_chain_ne (y :: rest) (t + 1) (t + 1)⟩
      intro b hb
      have hh := compressFrom_head_process y rest (t + 1) (t + 1)
      rw [hb] at hh
      have hh2 : b.process = y := by simpa using hh
      show x ≠ b.process
      rw [hh2]
      exact Ne.symm hne
    · exact compressFrom_chain_ne (y :: rest) s (t + 1)

/-- C6: on non-empty well-formed input no two adjacent Gantt blocks carry
the same label: the run-length encoding of the timeline is maximal. -/
theorem fcfs_adjacent_blocks_distinct (ps : List ProcessIn) (_hne : ps ≠ [])
    (_hwf : ∀ p ∈ ps, 0 ≤ p.arrival ∧ 0 < p.burst) :
    (fcfs ps).ganttBlocks.Chain' (fun a b => a.process ≠ b.process) := by
  rw [fcfs_blocks_eq]
  exact compressFrom_chain_ne _ 0 0

theorem fcfs_adjacent_blocks_distinct_witness :
    ([({ pid := "P1", arrival := 0, burst := 2 } : ProcessIn),
        { pid := "P2", arrival := 5, burst := 1 }] ≠ [] ∧
      ∀ p ∈ [({ pid := "P1", arrival := 0, burst := 2 } : ProcessIn),
        { pid := "P2", arrival := 5, burst := 1 }], 0 ≤ p.arrival ∧ 0 < p.burst) ∧
    (fcfs [({ pid := "P1", arrival := 0, burst := 2 } : ProcessIn),
      { pid := "P2", arrival := 5, burst := 1 }]).ganttBlocks.Chain'
        (fun a b => a.process ≠ b.process) :=
  ⟨⟨by decide, by decide⟩,
    fcfs_adjacent_blocks_distinct
      [{ pid := "P1", arrival := 0, burst := 2 }, { pid := "P2", arrival := 5, burst := 1 }]
      (by decide) (by decide)⟩

/-- Contiguity of a block list: the first block starts at `s`, each
block's `stop` is the next block's `start`, and the last `stop` is `e`
(for the empty list, `s = e`). -/
def Contig : Nat → List GanttBlock → Nat → Prop
  | s, [], e => s = e
  | s, b :: bs, e => b.start = s ∧ Contig b.stop bs e

theorem compressFrom_contig : ∀ (l : List String) (s t : Nat), l ≠ [] →
    Contig s (compressFrom l s t) (t + l.length)
  | [], _, _, h => absurd rfl h
  | [_], s, t, _ => by simp [compressFrom, Contig]
  | x :: y :: rest, s, t, _ => by
    have harith : t + (x :: y :: rest).length = (t + 1) + (y :: rest).length := by
      simp [List.length_cons]; omega
    rw [harith]
    simp only [compressFrom]
    split
    · exact ⟨rfl, compressFrom_contig (y :: rest) (t + 1) (t + 1) (by simp)⟩
    · exact compressFrom_contig (y :: rest) s (t + 1) (by simp)

theorem compressFrom_start_le_stop : ∀ (l : List String) (s t : Nat), s ≤ t →
    ∀ b ∈ compressFrom l s t, b.start < b.stop
  | [], _, _, _ => by simp [compressFrom]
  | [x], s, t, hst => by
    simp only [compressFrom, List.mem_singleton]
    rintro b rfl
    show s < t + 1
    omega
  | x :: y :: rest, s, t, hst => by
    simp only [compressFrom]
    split
    · intro b hb
      rcases List.mem_cons.mp hb with rfl | hb
      · show s < t + 1
        omega
      · exact compressFrom_start_le_stop (y :: rest) (t + 1) (t + 1) le_rfl b hb
    · exact compressFrom_start_le_stop (y :: rest) s (t + 1) (by omega)

theorem contig_le : ∀ (bs : List GanttBlock) (s e : Nat), Contig s bs e →
    (∀ b ∈ bs, b.start < b.stop) → s ≤ e := by
  intro bs
  induction bs with
  | nil => intro s e h _; exact h.le
  | cons b bs ih =>
    intro s e h hp
    rcases h with ⟨hs, hc⟩
    have h1 : b.start < b.stop := hp b (List.mem_cons_self b bs)
    have h2 : b.stop ≤ e := ih b.stop e hc (fun b' hb' => hp b' (List.mem_cons_of_mem b hb'))
    omega

theorem contig_bounds : ∀ (bs : List GanttBlock) (s e : Nat), Contig s bs e →
    (∀ b ∈ bs, b.start < b.stop) → ∀ b ∈ bs, b.start ≤ e ∧ b.stop ≤ e := by
  intro bs
  induction bs with
  | nil => simp
  | cons b bs ih =>
    intro s e h hp b' hb'
    rcases h with ⟨hs, hc⟩
    have hstop : b.stop ≤ e :=
      contig_le bs b.stop e hc (fun c hc' => hp c (List.mem_cons_of_mem b hc'))
    rcases List.mem_cons.mp hb' with rfl | hb'
    · exact ⟨le_trans (hp b' (List.mem_cons_self b' bs)).le hstop, hstop⟩
    · exact ih b.stop e hc (fun c hc' => hp c (List.mem_cons_of_mem b hc')) b' hb'

theorem contig_last_stop : ∀ (bs : List GanttBlock) (s e : Nat), Contig s bs e →
    bs ≠ [] → ∃ b ∈ bs, b.stop = e := by
  intro bs
  induction bs with
  | nil => intro s e _ h; exact absurd rfl h
  | cons b bs ih =>
    intro s e h _
    rcases h with ⟨hs, hc⟩
    cases bs with
    | nil => exact ⟨b, List.mem_cons_self b [], hc⟩
    | cons b' bs' =>
      rcases ih b.stop e hc (by simp) with ⟨c, hc1, hc2⟩
      exact ⟨c, List.mem_cons_of_mem b hc1, hc2⟩

theorem contig_sum : ∀ (bs : List GanttBlock) (s e : Nat), Contig s bs e →
    (bs.map (fun b => (b.stop : Int) - (b.start : Int))).sum = (e : Int) - (s : Int) := by
  intro bs
  induction bs with
  | nil =>
    intro s e h
    rcases h with rfl
    simp
  | cons b bs ih =>
    intro s e h
    rcases h with ⟨hs, hc⟩
    rw [List.map_cons, List.sum_cons, ih b.stop e hc, hs]
    ring

theorem contig_chain (bs : List GanttBlock) :
    ∀ (s e : Nat), Contig s bs e → bs.Chain' (fun a b => a.stop = b.start) := by
  induction bs with
  | nil => simp
  | cons b bs ih =>
    intro s e h
    rcases h with ⟨hs, hc⟩
    rw [List.chain'_cons']
    refine ⟨?_, ih b.stop e hc⟩
    intro b' hb'
    cases bs with
    | nil => simp at hb'
    | cons c cs =>
      have hcb : c = b' := by simpa using hb'
      rcases hc with ⟨hc1, _⟩
      rw [← hcb]
      exact hc1.symm

theorem contig_head_start (b : GanttBlock) (bs : List GanttBlock) (s e : Nat)
    (h : Contig s (b :: bs) e) : b.start = s := h.1

/-! ### Time markers -/

theorem natSort_sorted (l : List Nat) : (natSort l).Sorted (fun a b => a ≤ b) :=
  List.sorted_insertionSort _ l

theorem natSort_perm (l : List Nat) : (natSort l).Perm l :=
  List.perm_insertionSort _ l

theorem natSort_mem (l : List Nat) (x : Nat) : x ∈ natSort l ↔ x ∈ l :=
  (natSort_perm l).mem_iff

theorem getLastD_mem_cons : ∀ (l : List Nat) (a : Nat), l.getLastD a ∈ a :: l := by
  intro l
  induction l with
  | nil => intro a; simp
  | cons b l ih =>
    intro a
    rw [List.getLastD_cons]
    rcases List.mem_cons.mp (ih b) with h | h
    · rw [h]; exact List.mem_cons_of_mem a (List.mem_cons_self b l)
    · exact List.mem_cons_of_mem a (List.mem_cons_of_mem b h)

theorem sorted_getLastD_ub : ∀ (l : List Nat) (a : Nat),
    List.Sorted (fun x y => x ≤ y) (a :: l) → ∀ x ∈ a :: l, x ≤ l.getLastD a := by
  intro l
  induction l with
  | nil =>
    intro a _ x hx
    rcases List.mem_singleton.mp hx with rfl
    simp
  | cons b l ih =>
    intro a hs x hx
    have hab : a ≤ b := (List.sorted_cons.mp hs).1 b (List.mem_cons_self b l)
    have hs' : List.Sorted (fun x y => x ≤ y) (b :: l) := (List.sorted_cons.mp hs).2
    rw [List.getLastD_cons]
    rcases List.mem_cons.mp hx with rfl | hx
    · exact le_trans hab (ih b hs' b (List.mem_cons_self b l))
    · exact ih b hs' x hx

theorem fcfs_markers_ne_nil (ps : List ProcessIn) (h : (fcfs ps).ganttBlocks ≠ []) :
    (fcfs ps).timeMarkers ≠ [] := by
  rcases List.exists_mem_of_ne_nil _ h with ⟨b, hb⟩
  have hmem : b.start ∈ (fcfs ps).timeMarkers := by
    rw [fcfs_markers_eq, natSort_mem, List.mem_dedup, List.mem_append]
    exact Or.inl (List.mem_map_of_mem GanttBlock.start hb)
  exact List.ne_nil_of_mem hmem

theorem fcfs_totalTime_mem (ps : List ProcessIn) (h : (fcfs ps).ganttBlocks ≠ []) :
    (fcfs ps).totalTime ∈ (fcfs ps).timeMarkers := by
  have hne := fcfs_markers_ne_nil ps h
  rw [fcfs_totalTime_eq]
  cases hm : (fcfs ps).timeMarkers with
  | nil => exact absurd hm hne
  | cons a l =>
    rw [List.getLastD_cons]
    exact getLastD_mem_cons l a

theorem fcfs_totalTime_ub (ps : List ProcessIn) (x : Nat)
    (hx : x ∈ (fcfs ps).timeMarkers) : x ≤ (fcfs ps).totalTime := by
  have hsorted : ((fcfs ps).timeMarkers).Sorted (fun a b => a ≤ b) := by
    rw [fcfs_markers_eq]; exact natSort_sorted _
  rw [fcfs_totalTime_eq]
  cases hm : (fcfs ps).timeMarkers with
  | nil => rw [hm] at hx; exact absurd hx (List.not_mem_nil x)
  | cons a l =>
    rw [hm] at hx hsorted
    rw [List.getLastD_cons]
    exact sorted_getLastD_ub l a hsorted x hx

/-- C8: for every input, the time markers are the block start and stop
values with duplicates removed and sorted ascending (same underlying set,
sorted, no duplicates), and the total time is the greatest marker, or 0
when there are no blocks. -/
theorem fcfs_timeMarkers_spec (ps : List ProcessIn) :
    (fcfs ps).timeMarkers.Sorted (fun a b => a ≤ b) ∧
    (fcfs ps).timeMarkers.Nodup ∧
    (fcfs ps).timeMarkers.toFinset =
      ((fcfs ps).ganttBlocks.map GanttBlock.start ++
        (fcfs ps).ganttBlocks.map GanttBlock.stop).toFinset ∧
    ((fcfs ps).ganttBlocks = [] → (fcfs ps).totalTime = 0) ∧
    ((fcfs ps).ganttBlocks ≠ [] →
      (fcfs ps).totalTime ∈ (fcfs ps).timeMarkers ∧
      ∀ x ∈ (fcfs ps).timeMarkers, x ≤ (fcfs ps).totalTime) := by
  refine ⟨?_, ?_, ?_, ?_, ?_⟩
  · rw [fcfs_markers_eq]; exact natSort_sorted _
  · rw [fcfs_markers_eq]
    exact ((natSort_perm _).nodup_iff).mpr (List.nodup_dedup _)
  · rw [fcfs_markers_eq]
    apply List.toFinset.ext
    intro x
    rw [natSort_mem, List.mem_dedup]
  · intro hb
    rw [fcfs_totalTime_eq, fcfs_markers_eq, hb]
    rfl
  · intro hb
    exact ⟨fcfs_totalTime_mem ps hb, fun x hx => fcfs_totalTime_ub ps x hx⟩

theorem specTimeline_length : ∀ (procs : List ProcessIn) (clock : Int),
    (∀ p ∈ procs, 0 ≤ p.burst) →
    clock + ((specTimeline clock procs).length : Int) = finalClock clock procs := by
  intro procs
  induction procs with
  | nil => intro clock _; simp [specTimeline, finalClock]
  | cons p rest ih =>
    intro clock h
    have hb : 0 ≤ p.burst := h p (List.mem_cons_self p rest)
    have hrest : ∀ q ∈ rest, 0 ≤ q.burst := fun q hq => h q (List.mem_cons_of_mem p hq)
    have ihc := ih (max clock p.arrival + p.burst) hrest
    rw [specTimeline, finalClock, ← ihc]
    simp only [List.length_append, List.length_replicate]
    rcases le_total clock p.arrival with hca | hca
    · rw [max_eq_right hca]
      push_cast
      omega
    · rw [max_eq_left hca]
      push_cast
      omega

theorem specTimeline_ne_nil : ∀ (procs : List ProcessIn) (clock : Int) (p : ProcessIn),
    p ∈ procs → 0 < p.burst → specTimeline clock procs ≠ [] := by
  intro procs
  induction procs with
  | nil => simp
  | cons q rest ih =>
    intro clock p hp hb hcontra
    rw [specTimeline] at hcontra
    rcases List.append_eq_nil.mp hcontra with ⟨h1, h2b⟩
    rcases List.append_eq_nil.mp h1 with ⟨_, h2a⟩
    rcases List.mem_cons.mp hp with rfl | hp'
    · have hz : p.burst.toNat = 0 := by
        simpa using congrArg List.length h2a
      omega
    · exact ih (max clock q.arrival + q.burst) p hp' hb h2b

theorem specResults_completion_le : ∀ (procs : List ProcessIn) (clock : Int),
    (∀ p ∈ procs, 0 ≤ p.burst) →
    (∀ r ∈ specResults clock procs, r.completion ≤ finalClock clock procs) ∧
    clock ≤ finalClock clock procs := by
  intro procs
  induction procs with
  | nil =>
    intro clock _
    exact ⟨by simp [specResults], le_of_eq rfl⟩
  | cons p rest ih =>
    intro clock h
    have hb : 0 ≤ p.burst := h p (List.mem_cons_self p rest)
    have hrest : ∀ q ∈ rest, 0 ≤ q.burst := fun q hq => h q (List.mem_cons_of_mem p hq)
    rcases ih (max clock p.arrival + p.burst) hrest with ⟨htail, hclock⟩
    constructor
    · intro r hr
      rw [specResults, List.mem_cons] at hr
      rcases hr with rfl | hr
      · exact hclock
      · exact htail r hr
    · calc clock ≤ max clock p.arrival := le_max_left _ _
        _ ≤ max clock p.arrival + p.burst := by omega
        _ ≤ _ := hclock

theorem specResults_completion_mem : ∀ (procs : List ProcessIn) (clock : Int),
    procs ≠ [] → ∃ r ∈ specResults clock procs, r.completion = finalClock clock procs := by
  intro procs
  induction procs with
  | nil => intro clock h; exact absurd rfl h
  | cons p rest ih =>
    intro clock _
    cases rest with
    | nil =>
      refine ⟨_, List.mem_cons_self _ _, ?_⟩
      rfl
    | cons q rest' =>
      rcases ih (max clock p.arrival + p.burst) (by simp) with ⟨r, hr, hc⟩
      exact ⟨r, List.mem_cons_of_mem _ hr, hc⟩

theorem fcfsSort_mem (ps : List ProcessIn) (p : ProcessIn) : p ∈ fcfsSort ps ↔ p ∈ ps :=
  List.mem_insertionSort sortLe

/-- C3: on non-empty well-formed input the Gantt blocks start at 0, are
contiguous (each block's stop is the next block's start), their durations
sum to the total time, and the total time is the maximum completion time
over all processes (it is a completion time and bounds every one). -/
theorem fcfs_timeline_coverage (ps : List ProcessIn) (hne : ps ≠ [])
    (hwf : ∀ p ∈ ps, 0 ≤ p.arrival ∧ 0 < p.burst) :
    ((fcfs ps).ganttBlocks.head?.map GanttBlock.start = some 0) ∧
    (fcfs ps).ganttBlocks.Chain' (fun a b => a.stop = b.start) ∧
    ((fcfs ps).ganttBlocks.map (fun b => (b.stop : Int) - (b.start : Int))).sum =
      ((fcfs ps).totalTime : Int) ∧
    ((fcfs ps).totalTime : Int) ∈ (fcfs ps).results.map ProcResult.completion ∧
    ∀ c ∈ (fcfs ps).results.map ProcResult.completion, c ≤ ((fcfs ps).totalTime : Int) := by
  rcases List.exists_mem_of_ne_nil ps hne with ⟨p₀, hp₀⟩
  have hwf' : ∀ p ∈ fcfsSort ps, 0 ≤ p.arrival ∧ 0 < p.burst :=
    fun p hp => hwf p ((fcfsSort_mem ps p).mp hp)
  have hbursts : ∀ p ∈ fcfsSort ps, 0 ≤ p.burst := fun p hp => (hwf' p hp).2.le
  have hsne : fcfsSort ps ≠ [] :=
    List.ne_nil_of_mem ((fcfsSort_mem ps p₀).mpr hp₀)
  have hLne : specTimeline 0 (fcfsSort ps) ≠ [] :=
    specTimeline_ne_nil (fcfsSort ps) 0 p₀ ((fcfsSort_mem ps p₀).mpr hp₀) (hwf p₀ hp₀).2
  have hblocks := fcfs_blocks_eq ps
  have hcontig :
      Contig 0 (compressFrom (specTimeline 0 (fcfsSort ps)) 0 0)
        ((specTimeline 0 (fcfsSort ps)).length) := by
    have := compressFrom_contig (specTimeline 0 (fcfsSort ps)) 0 0 hLne
    rwa [Nat.zero_add] at this
  have hpos := compressFrom_start_le_stop (specTimeline 0 (fcfsSort ps)) 0 0 le_rfl
  have hbne : (fcfs ps).ganttBlocks ≠ [] := by
    rw [hblocks]; exact compressFrom_ne_nil _ 0 0 hLne
  have h_tt_le : (fcfs ps).totalTime ≤ (specTimeline 0 (fcfsSort ps)).length := by
    have hmem := fcfs_totalTime_mem ps hbne
    rw [fcfs_markers_eq, natSort_mem, List.mem_dedup] at hmem
    rw [hblocks] at hmem
    rcases List.mem_append.mp hmem with h | h
    · rcases List.mem_map.mp h with ⟨b, hb, hbe⟩
      have := (contig_bounds _ 0 _ hcontig hpos b hb).1
      omega
    · rcases List.mem_map.mp h with ⟨b, hb, hbe⟩
      have := (contig_bounds _ 0 _ hcontig hpos b hb).2
      omega
  have h_len_mem : (specTimeline 0 (fcfsSort ps)).length ∈ (fcfs ps).timeMarkers := by
    rcases contig_last_stop _ 0 _ hcontig (compressFrom_ne_nil _ 0 0 hLne) with ⟨b, hb, hbe⟩
    rw [fcfs_markers_eq, natSort_mem, List.mem_dedup, List.mem_append]
    refine Or.inr ?_
    rw [hblocks]
    exact List.mem_map.mpr ⟨b, hb, hbe⟩
  have h_tt : (fcfs ps).totalTime = (specTimeline 0 (fcfsSort ps)).length :=
    le_antisymm h_tt_le (fcfs_totalTime_ub ps _ h_len_mem)
  have h_final : finalClock 0 (fcfsSort ps) = ((specTimeline 0 (fcfsSort ps)).length : Int) := by
    have := specTimeline_length (fcfsSort ps) 0 hbursts
    omega
  refine ⟨?_, ?_, ?_, ?_, ?_⟩
  · rw [hblocks]
    cases hcf : compressFrom (specTimeline 0 (fcfsSort ps)) 0 0 with
    | nil => exact absurd hcf (compressFrom_ne_nil _ 0 0 hLne)
    | cons b bs =>
      rw [hcf] at hcontig
      simp [hcontig.1]
  · rw [hblocks]
    exact contig_chain _ 0 _ hcontig
  · rw [hblocks, contig_sum _ 0 _ hcontig, h_tt]
    push_cast
    ring
  · rcases specResults_completion_mem (fcfsSort ps) 0 hsne with ⟨r, hr, hc⟩
    rw [fcfs_results_eq]
    refine List.mem_map.mpr ⟨r, hr, ?_⟩
    rw [hc, h_final, h_tt]
  · intro c hc
    rw [fcfs_results_eq] at hc
    rcases List.mem_map.mp hc with ⟨r, hr, rfl⟩
    have := (specResults_completion_le (fcfsSort ps) 0 hbursts).1 r hr
    rw [h_final] at this
    rw [h_tt]
    exact this

theorem fcfs_timeline_coverage_witness :
    (([({ pid := "P1", arrival := 2, burst := 3 } : ProcessIn)] ≠ []) ∧
      ∀ p ∈ [({ pid := "P1", arrival := 2, burst := 3 } : ProcessIn)],
        0 ≤ p.arrival ∧ 0 < p.burst) ∧
    (((fcfs [({ pid := "P1", arrival := 2, burst := 3 } : ProcessIn)]).ganttBlocks.head?.map
        GanttBlock.start = some 0) ∧
      (fcfs [({ pid := "P1", arrival := 2, burst := 3 } : ProcessIn)]).ganttBlocks.Chain'
        (fun a b => a.stop = b.start) ∧
      ((fcfs [({ pid := "P1", arrival := 2, burst := 3 } : ProcessIn)]).ganttBlocks.map
          (fun b => (b.stop : Int) - (b.start : Int))).sum =
        ((fcfs [({ pid := "P1", arrival := 2, burst := 3 } : ProcessIn)]).totalTime : Int) ∧
      ((fcfs [({ pid := "P1", arrival := 2, burst := 3 } : ProcessIn)]).totalTime : Int) ∈
        (fcfs [({ pid := "P1", arrival := 2, burst := 3 } : ProcessIn)]).results.map
          ProcResult.completion ∧
      ∀ c ∈ (fcfs [({ pid := "P1", arrival := 2, burst := 3 } : ProcessIn)]).results.map
          ProcResult.completion,
        c ≤ ((fcfs [({ pid := "P1", arrival := 2, burst := 3 } : ProcessIn)]).totalTime : Int)) :=
  ⟨⟨by decide, by decide⟩,
    fcfs_timeline_coverage [{ pid := "P1", arrival := 2, burst := 3 }] (by decide) (by decide)⟩

theorem fcfs_timeMarkers_spec_witness :
    ((fcfs [({ pid := "P1", arrival := 2, burst := 3 } : ProcessIn)]).timeMarkers.Sorted
        (fun a b => a ≤ b) ∧
      (fcfs [({ pid := "P1", arrival := 2, burst := 3 } : ProcessIn)]).timeMarkers.Nodup ∧
      (fcfs [({ pid := "P1", arrival := 2, burst := 3 } : ProcessIn)]).timeMarkers.toFinset =
        ((fcfs [({ pid := "P1", arrival := 2, burst := 3 } : ProcessIn)]).ganttBlocks.map
            GanttBlock.start ++
          (fcfs [({ pid := "P1", arrival := 2, burst := 3 } : ProcessIn)]).ganttBlocks.map
            GanttBlock.stop).toFinset ∧
      ((fcfs [({ pid := "P1", arrival := 2, burst := 3 } : ProcessIn)]).ganttBlocks = [] →
        (fcfs [({ pid := "P1", arrival := 2, burst := 3 } : ProcessIn)]).totalTime = 0) ∧
      ((fcfs [({ pid := "P1", arrival := 2, burst := 3 } : ProcessIn)]).ganttBlocks ≠ [] →
        (fcfs [({ pid := "P1", arrival := 2, burst := 3 } : ProcessIn)]).totalTime ∈
          (fcfs [({ pid := "P1", arrival := 2, burst := 3 } : ProcessIn)]).timeMarkers ∧
        ∀ x ∈ (fcfs [({ pid := "P1", arrival := 2, burst := 3 } : ProcessIn)]).timeMarkers,
          x ≤ (fcfs [({ pid := "P1", arrival := 2, burst := 3 } : ProcessIn)]).totalTime)) :=
  fcfs_timeMarkers_spec [{ pid := "P1", arrival := 2, burst := 3 }]

/-! ### Waiting time characterization -/

theorem max_sub_eq_zero_iff (c a : Int) : max c a - a = 0 ↔ c ≤ a := by
  rcases le_total c a with h | h
  · rw [max_eq_right h]
    simp [h]
  · rw [max_eq_left h]
    constructor
    · intro h0; omega
    · intro h0; omega

theorem specResults_chain_waiting : ∀ (procs : List ProcessIn) (clock : Int),
    (specResults clock procs).Chain' (fun a b => b.waiting = 0 ↔ a.completion ≤ b.arrival) := by
  intro procs
  induction procs with
  | nil => intro clock; exact List.chain'_nil
  | cons p rest ih =>
    intro clock
    rw [specResults, List.chain'_cons']
    refine ⟨?_, ih (max clock p.arrival + p.burst)⟩
    intro b hb
    cases rest with
    | nil => simp [specResults] at hb
    | cons q rest' =>
      rw [specResults] at hb
      simp only [List.head?_cons, Option.mem_def, Option.some.injEq] at hb
      subst hb
      show max (max clock p.arrival + p.burst) q.arrival + q.burst - q.arrival - q.burst = 0 ↔
        max clock p.arrival + p.burst ≤ q.arrival
      have hrw : max (max clock p.arrival + p.burst) q.arrival + q.burst - q.arrival - q.burst =
          max (max clock p.arrival + p.burst) q.arrival - q.arrival := by ring
      rw [hrw]
      exact max_sub_eq_zero_iff _ _

/-- C5 counterexample: for the well-formed singleton input with arrival 2
and burst 3, the only process (the first in execution order) has waiting
time 0, yet it starts at time 2 (not 0) and a prior idle block exists,
refuting that waiting can be 0 only for a first process that starts at
time 0 with no prior idle interval. -/
theorem fcfs_waiting_zero_counterexample :
    ((fcfs [{ pid := "P1", arrival := 2, burst := 3 }]).results.map ProcResult.waiting =
      [0]) ∧
    ((fcfs [{ pid := "P1", arrival := 2, burst := 3 }]).ganttBlocks.map GanttBlock.process =
      ["IDLE", "P1"]) ∧
    ((fcfs [{ pid := "P1", arrival := 2, burst := 3 }]).results.map
      (fun r => r.completion - r.burst) = [2]) := by
  decide

/-- C5 amended: on non-empty well-formed input the first process in
execution order always has waiting time 0, and each later process has
waiting time 0 exactly when the preceding process's completion is at most
its arrival time (the CPU is free no later than it arrives). -/
theorem fcfs_waiting_zero_iff (ps : List ProcessIn) (_hne : ps ≠ [])
    (hwf : ∀ p ∈ ps, 0 ≤ p.arrival ∧ 0 < p.burst) :
    (∀ r ∈ (fcfs ps).results.head?, r.waiting = 0) ∧
    (fcfs ps).results.Chain' (fun a b => b.waiting = 0 ↔ a.completion ≤ b.arrival) := by
  constructor
  · intro r hr
    rw [fcfs_results_eq] at hr
    cases hs : fcfsSort ps with
    | nil => rw [hs] at hr; simp [specResults] at hr
    | cons p rest =>
      have hp : p ∈ ps := (fcfsSort_mem ps p).mp (hs ▸ List.mem_cons_self p rest)
      have ha : 0 ≤ p.arrival := (hwf p hp).1
      rw [hs, specResults] at hr
      simp only [List.head?_cons, Option.mem_def, Option.some.injEq] at hr
      subst hr
      show max 0 p.arrival + p.burst - p.arrival - p.burst = 0
      rw [max_eq_right ha]
      ring
  · rw [fcfs_results_eq]
    exact specResults_chain_waiting _ 0

theorem fcfs_waiting_zero_iff_witness :
    (([({ pid := "P1", arrival := 0, burst := 2 } : ProcessIn),
        { pid := "P2", arrival := 2, burst := 1 }] ≠ []) ∧
      ∀ p ∈ [({ pid := "P1", arrival := 0, burst := 2 } : ProcessIn),
        { pid := "P2", arrival := 2, burst := 1 }], 0 ≤ p.arrival ∧ 0 < p.burst) ∧
    ((∀ r ∈ (fcfs [({ pid := "P1", arrival := 0, burst := 2 } : ProcessIn),
        { pid := "P2", arrival := 2, burst := 1 }]).results.head?, r.waiting = 0) ∧
      (fcfs [({ pid := "P1", arrival := 0, burst := 2 } : ProcessIn),
        { pid := "P2", arrival := 2, burst := 1 }]).results.Chain'
          (fun a b => b.waiting = 0 ↔ a.completion ≤ b.arrival)) :=
  ⟨⟨by decide, by decide⟩,
    fcfs_waiting_zero_iff
      [{ pid := "P1", arrival := 0, burst := 2 }, { pid := "P2", arrival := 2, burst := 1 }]
      (by decide) (by decide)⟩

/-! ### Exactly one block per process id -/

/-- The labels of the compressed blocks: adjacent equal labels collapse,
keeping one representative per maximal run. -/
def compressLabels : List String → List String
  | [] => []
  | [x] => [x]
  | x :: y :: rest =>
    if y ≠ x then x :: compressLabels (y :: rest) else compressLabels (y :: rest)

theorem compressFrom_map_process : ∀ (l : List String) (s t : Nat),
    (compressFrom l s t).map GanttBlock.process = compressLabels l
  | [], _, _ => rfl
  | [_], _, _ => rfl
  | x :: y :: rest, s, t => by
    simp only [compressFrom, compressLabels]
    by_cases h : y ≠ x
    · rw [if_pos h, if_pos h, List.map_cons,
        compressFrom_map_process (y :: rest) (t + 1) (t + 1)]
    · rw [if_neg h, if_neg h]
      exact compressFrom_map_process (y :: rest) s (t + 1)

theorem compressLabels_subset : ∀ (l : List String) (x : String),
    x ∈ compressLabels l → x ∈ l
  | [], _, h => absurd h (List.not_mem_nil _)
  | [y], x, h => by simpa [compressLabels] using h
  | y :: z :: rest, x, h => by
    by_cases hzy : z ≠ y
    · rw [compressLabels, if_pos hzy] at h
      rcases List.mem_cons.mp h with rfl | h
      · exact List.mem_cons_self _ _
      · exact List.mem_cons_of_mem _ (compressLabels_subset (z :: rest) x h)
    · rw [compressLabels, if_neg hzy] at h
      exact List.mem_cons_of_mem _ (compressLabels_subset (z :: rest) x h)

theorem countP_compressLabels_cons (p a : String) (l : List String) (ha : a ≠ p)
    (hl : l ≠ []) :
    (compressLabels (a :: l)).countP (fun s => decide (s = p)) =
      (compressLabels l).countP (fun s => decide (s = p)) := by
  cases l with
  | nil => exact absurd rfl hl
  | cons h r =>
    by_cases hha : h ≠ a
    · rw [compressLabels, if_pos hha, List.countP_cons]
      simp [ha]
    · rw [compressLabels, if_neg hha]

theorem countP_compressLabels_front : ∀ (A : List String) (p : String) (l : List String),
    (∀ a ∈ A, a ≠ p) → l ≠ [] →
    (compressLabels (A ++ l)).countP (fun s => decide (s = p)) =
      (compressLabels l).countP (fun s => decide (s = p)) := by
  intro A
  induction A with
  | nil => intro p l _ _; rfl
  | cons a A ih =>
    intro p l hA hl
    rw [List.cons_append,
      countP_compressLabels_cons p a (A ++ l) (hA a (List.mem_cons_self a A))
        (fun hc => hl (List.append_eq_nil.mp hc).2)]
    exact ih p l (fun b hb => hA b (List.mem_cons_of_mem a hb)) hl

theorem countP_compressLabels_run : ∀ (k : Nat) (p : String) (B : List String),
    0 < k → (∀ b ∈ B, b ≠ p) →
    (compressLabels (List.replicate k p ++ B)).countP (fun s => decide (s = p)) = 1 := by
  intro k
  induction k with
  | zero => intro p B h _; omega
  | succ k ih =>
    intro p B _ hB
    cases k with
    | zero =>
      rw [List.replicate_succ, List.replicate_zero, List.cons_append, List.nil_append]
      cases B with
      | nil => simp [compressLabels, List.countP_cons]
      | cons b B' =>
        have hbp : b ≠ p := hB b (List.mem_cons_self b B')
        rw [compressLabels, if_pos hbp, List.countP_cons]
        have hzero : (compressLabels (b :: B')).countP (fun s => decide (s = p)) = 0 := by
          apply List.countP_eq_zero.mpr
          intro x hx
          have hxB := compressLabels_subset (b :: B') x hx
          simpa using hB x hxB
        simp [hzero]
    | succ k' =>
      rw [List.replicate_succ, List.cons_append, List.replicate_succ, List.cons_append,
        compressLabels, if_neg (fun h => h rfl), ← List.cons_append, ← List.replicate_succ]
      exact ih p B (Nat.succ_pos k') hB

theorem specTimeline_mem : ∀ (procs : List ProcessIn) (clock : Int) (x : String),
    x ∈ specTimeline clock procs → x = "IDLE" ∨ ∃ q ∈ procs, x = q.pid := by
  intro procs
  induction procs with
  | nil => intro clock x hx; simp [specTimeline] at hx
  | cons q rest ih =>
    intro clock x hx
    rw [specTimeline] at hx
    rcases List.mem_append.mp hx with h12 | h3
    · rcases List.mem_append.mp h12 with h1 | h2
      · exact Or.inl (List.eq_of_mem_replicate h1)
      · exact Or.inr ⟨q, List.mem_cons_self q rest, List.eq_of_mem_replicate h2⟩
    · rcases ih (max clock q.arrival + q.burst) x h3 with h | ⟨r, hr, he⟩
      · exact Or.inl h
      · exact Or.inr ⟨r, List.mem_cons_of_mem q hr, he⟩

theorem specTimeline_count_one : ∀ (procs : List ProcessIn) (clock : Int),
    (∀ q ∈ procs, 0 < q.burst) → (procs.map ProcessIn.pid).Nodup →
    (∀ q ∈ procs, q.pid ≠ "IDLE") →
    ∀ p ∈ procs,
      (compressLabels (specTimeline clock procs)).countP (fun s => decide (s = p.pid)) = 1 := by
  intro procs
  induction procs with
  | nil => intro clock _ _ _ p hp; simp at hp
  | cons q rest ih =>
    intro clock hb hnd hni p hp
    have hndr : (rest.map ProcessIn.pid).Nodup := by
      rw [List.map_cons, List.nodup_cons] at hnd
      exact hnd.2
    have hqnotin : q.pid ∉ rest.map ProcessIn.pid := by
      rw [List.map_cons, List.nodup_cons] at hnd
      exact hnd.1
    rw [specTimeline]
    rcases List.mem_cons.mp hp with rfl | hp'
    · have hpid : p.pid ≠ "IDLE" := hni p (List.mem_cons_self p rest)
      have htail_free : ∀ b ∈ specTimeline (max clock p.arrival + p.burst) rest, b ≠ p.pid := by
        intro b hbm
        rcases specTimeline_mem rest _ b hbm with rfl | ⟨r, hr, rfl⟩
        · exact Ne.symm hpid
        · intro hc
          exact hqnotin (hc ▸ List.mem_map_of_mem ProcessIn.pid hr)
      rw [List.append_assoc,
        countP_compressLabels_front (List.replicate (p.arrival - clock).toNat "IDLE") p.pid _
          (fun a ha => (List.eq_of_mem_replicate ha).symm ▸ Ne.symm hpid)
          (fun hc => ?hcontra)]
      · exact countP_compressLabels_run p.burst.toNat p.pid _
          (by have := hb p (List.mem_cons_self p rest); omega) htail_free
      · case hcontra =>
          have h1 := (List.append_eq_nil.mp hc).1
          have hz : p.burst.toNat = 0 := by simpa using congrArg List.length h1
          have := hb p (List.mem_cons_self p rest)
          omega
    · have hpidr : p.pid ∈ rest.map ProcessIn.pid := List.mem_map_of_mem ProcessIn.pid hp'
      have hA : ∀ a ∈ List.replicate (q.arrival - clock).toNat "IDLE" ++
          List.replicate q.burst.toNat q.pid, a ≠ p.pid := by
        intro a ha
        rcases List.mem_append.mp ha with h1 | h2
        · rw [List.eq_of_mem_replicate h1]
          exact Ne.symm (hni p (List.mem_cons_of_mem q hp'))
        · rw [List.eq_of_mem_replicate h2]
          intro hc
          exact hqnotin (hc ▸ hpidr)
      rw [countP_compressLabels_front _ p.pid _ hA
        (specTimeline_ne_nil rest _ p hp' (hb p (List.mem_cons_of_mem q hp')))]
      exact ih _ (fun r hr => hb r (List.mem_cons_of_mem q hr)) hndr
        (fun r hr => hni r (List.mem_cons_of_mem q hr)) p hp'

/-- C7 counterexample: the well-formed input with distinct ids `B` and
`IDLE` produces a timeline whose blocks are labelled `IDLE`, `B`, `IDLE`:
two blocks, not exactly one, carry the id of the process named `IDLE`,
because its execution units merge with genuine idle gaps. -/
theorem fcfs_unique_block_counterexample :
    (([({ pid := "B", arrival := 2, burst := 1 } : ProcessIn),
          { pid := "IDLE", arrival := 5, burst := 1 }].map ProcessIn.pid).Nodup ∧
      ∀ p ∈ [({ pid := "B", arrival := 2, burst := 1 } : ProcessIn),
          { pid := "IDLE", arrival := 5, burst := 1 }], 0 ≤ p.arrival ∧ 0 < p.burst) ∧
    ((fcfs [({ pid := "B", arrival := 2, burst := 1 } : ProcessIn),
        { pid := "IDLE", arrival := 5, burst := 1 }]).ganttBlocks.map GanttBlock.process =
      ["IDLE", "B", "IDLE"]) ∧
    ¬ ((fcfs [({ pid := "B", arrival := 2, burst := 1 } : ProcessIn),
        { pid := "IDLE", arrival := 5, burst := 1 }]).ganttBlocks.countP
          (fun b => decide (b.process = "IDLE")) = 1) := by
  decide

/-- C7 amended: on non-empty well-formed input whose process ids are
pairwise distinct and none of which equals the reserved label `IDLE`, each
input process has exactly one Gantt block carrying its id. -/
theorem fcfs_unique_block_per_pid (ps : List ProcessIn) (_hne : ps ≠ [])
    (hwf : ∀ p ∈ ps, 0 ≤ p.arrival ∧ 0 < p.burst)
    (hnd : (ps.map ProcessIn.pid).Nodup) (hni : ∀ p ∈ ps, p.pid ≠ "IDLE") :
    ∀ p ∈ ps,
      (fcfs ps).ganttBlocks.countP (fun b => decide (b.process = p.pid)) = 1 := by
  intro p hp
  have hcount : (fcfs ps).ganttBlocks.countP (fun b => decide (b.process = p.pid)) =
      ((fcfs ps).ganttBlocks.map GanttBlock.process).countP (fun s => decide (s = p.pid)) := by
    rw [List.countP_map]
    rfl
  rw [hcount, fcfs_blocks_eq, compressFrom_map_process]
  have hperm : List.Perm ((fcfsSort ps).map ProcessIn.pid) (ps.map ProcessIn.pid) :=
    (List.perm_insertionSort sortLe ps).map ProcessIn.pid
  exact specTimeline_count_one (fcfsSort ps) 0
    (fun q hq => (hwf q ((fcfsSort_mem ps q).mp hq)).2)
    (hperm.nodup_iff.mpr hnd)
    (fun q hq => hni q ((fcfsSort_mem ps q).mp hq))
    p ((fcfsSort_mem ps p).mpr hp)

theorem fcfs_unique_block_per_pid_witness :
    (([({ pid := "P1", arrival := 2, burst := 3 } : ProcessIn)] ≠ []) ∧
      (∀ p ∈ [({ pid := "P1", arrival := 2, burst := 3 } : ProcessIn)],
        0 ≤ p.arrival ∧ 0 < p.burst) ∧
      (([({ pid := "P1", arrival := 2, burst := 3 } : ProcessIn)].map ProcessIn.pid).Nodup) ∧
      (∀ p ∈ [({ pid := "P1", arrival := 2, burst := 3 } : ProcessIn)], p.pid ≠ "IDLE")) ∧
    ∀ p ∈ [({ pid := "P1", arrival := 2, burst := 3 } : ProcessIn)],
      (fcfs [({ pid := "P1", arrival := 2, burst := 3 } : ProcessIn)]).ganttBlocks.countP
        (fun b => decide (b.process = p.pid)) = 1 :=
  ⟨⟨by decide, by decide, by decide, by decide⟩,
    fcfs_unique_block_per_pid [{ pid := "P1", arrival := 2, burst := 3 }]
      (by decide) (by decide) (by decide) (by decide)⟩

end FCFS
